import Mathlib

/-!
# Verification of the fieldopt quadric-domain engine

Shallow embedding of `fieldopt/geometry/geometry.py` and
`fieldopt/geometry/domains.py` (the surface parameterization / quadric-domain
core), over exact real arithmetic.  Floating-point numbers are modelled as
real numbers; the one place where IEEE arithmetic produces non-finite values
(an unguarded division by `sin²θ = 0` in `rotate_vec2vec`) is modelled with an
`Option` result, `none` standing for a matrix of NaN/Inf entries.

External collaborators that are not part of the repository sources
(`scipy.linalg.lstsq`, `numpy.linalg.eig`) and the mesh helper module
(`fieldopt.geometry.mesh`, absent from the sources available here) are taken
as abstract function parameters, with their documented contracts stated as
predicates where a claim depends on them.
-/

open Classical

noncomputable section

abbrev Vec2 := Fin 2 → ℝ
abbrev Vec3 := Fin 3 → ℝ
abbrev Vec6 := Fin 6 → ℝ
abbrev Mat2 := Matrix (Fin 2) (Fin 2) ℝ
abbrev Mat3 := Matrix (Fin 3) (Fin 3) ℝ
abbrev Mat4 := Matrix (Fin 4) (Fin 4) ℝ

/-- Euclidean inner product of two 3-vectors (`np.dot`). -/
def dot3 (a b : Vec3) : ℝ := a 0 * b 0 + a 1 * b 1 + a 2 * b 2

/-- Inner product of two 2-vectors. -/
def dot2 (a b : Vec2) : ℝ := a 0 * b 0 + a 1 * b 1

/-- Cross product of two 3-vectors (`np.cross`). -/
def cross3 (a b : Vec3) : Vec3 :=
  ![a 1 * b 2 - a 2 * b 1, a 2 * b 0 - a 0 * b 2, a 0 * b 1 - a 1 * b 0]

/-- Euclidean norm of a 3-vector (`np.linalg.norm`). -/
noncomputable def norm3 (v : Vec3) : ℝ := Real.sqrt (dot3 v v)

/-- Embedding of `skew(vector)` from geometry.py: the skew-symmetric cross-product matrix,
with `cross3 a b = (skew a).mulVec b`. -/
def skew (v : Vec3) : Mat3 :=
  Matrix.of ![![0, -v 2, v 1], ![v 2, 0, -v 0], ![-v 1, v 0, 0]]

/-- Embedding of `affine(A, x)` from geometry.py, specialised to a single point: append a
homogeneous 1, multiply by the 4×4 matrix `A`, and keep the first three
coordinates.  The source applies this row-wise to an N×3 point set; point sets
are modelled as lists and mapped through this function. -/
def affine (A : Mat4) (x : Vec3) : Vec3 :=
  ![A 0 0 * x 0 + A 0 1 * x 1 + A 0 2 * x 2 + A 0 3,
    A 1 0 * x 0 + A 1 1 * x 1 + A 1 2 * x 2 + A 1 3,
    A 2 0 * x 0 + A 2 1 * x 1 + A 2 2 * x 2 + A 2 3]

/-- Embedding of `rotate_vec2vec(v1, v2)` from geometry.py: the Rodrigues rotation
`R = I + skew(n) + skew(n)² (1-cosθ)/sin²θ` with `n = v1×v2`,
`sinθ = ‖n‖`, `cosθ = v1·v2`.  Only `sin²θ = n·n` appears in the formula.
The source performs the division unconditionally; when `sin²θ = 0` the IEEE
quotient `(1-cosθ)/sin²θ` is NaN (parallel inputs, `0/0`) or Inf (antiparallel
inputs, `2/0`) and every entry of the returned matrix is non-finite.  The
production of those non-finite entries is modelled as `none`. -/
noncomputable def rotate_vec2vec (v1 v2 : Vec3) : Option Mat3 :=
  let n := cross3 v1 v2
  let sinv2 := dot3 n n
  let cosv := dot3 v1 v2
  if sinv2 = 0 then none
  else some (1 + skew n + ((1 - cosv) / sinv2) • (skew n * skew n))

/-- The design matrix assembled inside `quad_fit` in geometry.py: one row
`[1, x, y, x·y, x², y²]` per input point. -/
def designMatrix {m : ℕ} (X : Fin m → Vec2) : Matrix (Fin m) (Fin 6) ℝ :=
  Matrix.of fun i => ![1, X i 0, X i 1, X i 0 * X i 1, (X i 0) ^ 2, (X i 1) ^ 2]

/-- Embedding of `quad_fit(X, b)` from geometry.py: build the design matrix and hand the
system to the external least-squares solver (`scipy.linalg.lstsq`), returning
its solution unconditionally — the source performs no rank or size check. -/
def quad_fit {m : ℕ} (solver : Matrix (Fin m) (Fin 6) ℝ → (Fin m → ℝ) → Vec6)
    (X : Fin m → Vec2) (b : Fin m → ℝ) : Vec6 :=
  solver (designMatrix X) b

/-- Squared residual of a candidate solution of the least-squares system. -/
def residSq {m : ℕ} (A : Matrix (Fin m) (Fin 6) ℝ) (b : Fin m → ℝ)
    (x : Vec6) : ℝ :=
  ∑ i, (A.mulVec x i - b i) ^ 2

/-- Squared Euclidean norm of a coefficient vector. -/
def normSq6 (x : Vec6) : ℝ := ∑ i, x i ^ 2

/-- Documented contract of the external solver `scipy.linalg.lstsq` (not part
of this repository): it returns a residual-minimising solution and, among all
residual-minimising solutions, one of minimal Euclidean norm. -/
def MinNormLS {m : ℕ} (A : Matrix (Fin m) (Fin 6) ℝ) (b : Fin m → ℝ)
    (x : Vec6) : Prop :=
  (∀ y, residSq A b x ≤ residSq A b y) ∧
    ∀ y, (∀ z, residSq A b y ≤ residSq A b z) → normSq6 x ≤ normSq6 y

/-- Embedding of `quadratic_surf(x, y, C)` from geometry.py:
`f(x,y) = a + bx + cy + dxy + ex² + fy²`. -/
def quadratic_surf (x y : ℝ) (C : Vec6) : ℝ :=
  C 0 + C 1 * x + C 2 * y + C 3 * x * y + C 4 * x * x + C 5 * y * y

/-- Embedding of `quadratic_surf_position(x, y, C)` from geometry.py: the lift
`(x, y) ↦ (x, y, f(x,y))`. -/
def quadratic_surf_position (x y : ℝ) (C : Vec6) : Vec3 :=
  ![x, y, quadratic_surf x y C]

/-- Embedding of `compute_principal_dir(x, y, C)` from geometry.py.  The eigendecomposition
of the second-fundamental-form matrix is performed by the external library
routine `np.linalg.eig`, modelled as the abstract parameter `eig` returning
the column-eigenvector matrix `V`.  Returns
(major direction, minor direction, unit surface normal). -/
noncomputable def compute_principal_dir (eig : Mat2 → Mat2) (x y : ℝ)
    (C : Vec6) : Vec3 × Vec3 × Vec3 :=
  let r_x : Vec3 := ![1, 0, 2 * C 4 * x + C 1 + C 3 * y]
  let r_y : Vec3 := ![0, 1, 2 * C 5 * y + C 2 + C 3 * x]
  let r_xx : Vec3 := ![0, 0, 2 * C 4]
  let r_yy : Vec3 := ![0, 0, 2 * C 5]
  let r_xy : Vec3 := ![0, 0, C 3]
  let r_x_cross_y := cross3 r_x r_y
  let n := (norm3 r_x_cross_y)⁻¹ • r_x_cross_y
  let L := dot3 r_xx n
  let M := dot3 r_xy n
  let N := dot3 r_yy n
  let P : Mat2 := Matrix.of ![![L, M], ![M, N]]
  let V := eig P
  (![V 0 0, V 1 0, 0], ![V 0 1, V 1 1, 0], n)

/-- Embedding of `interpolate_angle(u, v, t, l)` from geometry.py (default period `l = 90`):
`θ = (t/l)·(π/2)`, result `u·cosθ + v·sinθ` with a trailing zero appended by
`np.r_`.  In the pipeline `u` and `v` are the 2D slices `v1[:2]`, `v2[:2]` of
the principal directions, so the inputs are modelled as 2-vectors and the
result as the 0-padded 3-vector. -/
noncomputable def interpolate_angle (u v : Vec2) (t l : ℝ) : Vec3 :=
  let theta := (t / l) * (Real.pi / 2)
  ![u 0 * Real.cos theta + v 0 * Real.sin theta,
    u 1 * Real.cos theta + v 1 * Real.sin theta, 0]

/-- The 0-padded lift of a 2-vector into 3D. -/
def lift2 (u : Vec2) : Vec3 := ![u 0, u 1, 0]

/-- The canonical +Z axis `np.array([0, 0, 1])`. -/
def zvec : Vec3 := ![0, 0, 1]

/-- Embedding of `quadratic_surf_rotation(x, y, t, C)` from geometry.py: compute the
principal directions and normal, interpolate the in-plane components of the
two principal directions by `t`, then rotate the interpolated vector from the
+Z-aligned frame onto the frame of the surface normal.  `none` models the NaN
outcome of the unguarded `rotate_vec2vec` degeneracy. -/
noncomputable def quadratic_surf_rotation (eig : Mat2 → Mat2) (x y t : ℝ)
    (C : Vec6) : Option (Vec3 × Vec3) :=
  let d := compute_principal_dir eig x y C
  let p := interpolate_angle ![d.1 0, d.1 1] ![d.2.1 0, d.2.1 1] t 90
  match rotate_vec2vec zvec d.2.2 with
  | none => none
  | some R => some (R.mulVec p, d.2.2)

/-- Embedding of `define_coil_orientation(loc, rot, n)` from geometry.py: normalise the
tangent (`y` axis) and normal (`z` axis), take their cross product as the `x`
axis, and pack the axes as columns of a homogeneous matrix with translation
`loc` and last row `(0,0,0,1)`. -/
noncomputable def define_coil_orientation (loc rot n : Vec3) : Mat4 :=
  let y := (norm3 rot)⁻¹ • rot
  let z := (norm3 n)⁻¹ • n
  let x := cross3 y z
  Matrix.of ![![x 0, y 0, z 0, loc 0],
              ![x 1, y 1, z 1, loc 1],
              ![x 2, y 2, z 2, loc 2],
              ![0, 0, 0, 1]]

/-- The 4×4 homogeneous matrix `np.eye(4)` with rotation block `R`
(`R4 = eye(4); R4[:3,:3] = R`). -/
def homRot (R : Mat3) : Mat4 :=
  Matrix.of ![![R 0 0, R 0 1, R 0 2, 0],
              ![R 1 0, R 1 1, R 1 2, 0],
              ![R 2 0, R 2 1, R 2 2, 0],
              ![0, 0, 0, 1]]

/-- The 4×4 homogeneous matrix `np.eye(4)` with translation column `t`
(`T = eye(4); T[:3,3] = t`). -/
def homTrans (t : Vec3) : Mat4 :=
  Matrix.of ![![1, 0, 0, t 0],
              ![0, 1, 0, t 1],
              ![0, 0, 1, t 2],
              ![0, 0, 0, 1]]

/-- The 3×3 rotation block `A[:3,:3]` of a homogeneous matrix. -/
def mat3of (A : Mat4) : Mat3 :=
  Matrix.of ![![A 0 0, A 0 1, A 0 2],
              ![A 1 0, A 1 1, A 1 2],
              ![A 2 0, A 2 1, A 2 2]]

/-- Column `j` of a 4×4 pose matrix restricted to its first three rows. -/
def colv (M : Mat4) (j : Fin 4) : Vec3 := ![M 0 j, M 1 j, M 2 j]

/-- Mean of a list of 3-vectors. -/
def average (l : List Vec3) : Vec3 :=
  ((l.length : ℝ))⁻¹ • l.foldr (· + ·) 0

/-- The immutable mesh snapshot consumed by the domain: vertex coordinates,
vertex tags and triangle connectivity.  Tags and triangles are consumed only
by the (spec-modelled) normal estimator, so their payload is abstract. -/
structure Mesh where
  coords : List Vec3
  nodes : List ℕ
  trigs : List (ℕ × ℕ × ℕ)

/-- External collaborators of the domain code.
`closest` — modelled from the spec: `mesh.closest_point2surf` (module
`fieldopt.geometry.mesh`, absent from the available sources) returns the mesh
point nearest to a query point.
`normals` — modelled from the spec: `mesh.get_normals` returns per-point
normal estimates for the neighbourhood, derived from adjacent triangle
geometry.
`solver` — the external least-squares routine `scipy.linalg.lstsq`.
`eig` — the external eigendecomposition routine `np.linalg.eig`. -/
structure Collab where
  closest : Vec3 → List Vec3 → Vec3
  normals : List ℕ → List ℕ → List Vec3 → List (ℕ × ℕ × ℕ) → List Vec3
  solver : (m : ℕ) → Matrix (Fin m) (Fin 6) ℝ → (Fin m → ℝ) → Vec6
  eig : Mat2 → Mat2

/-- Indices of the mesh points within Euclidean distance `localSpan` of `p`
(`np.where(norm(mesh.coords - p, axis=1) < local_span)`). -/
noncomputable def neighbourIdx (mesh : Mesh) (localSpan : ℝ) (p : Vec3) :
    List ℕ :=
  (List.range mesh.coords.length).filter
    (fun i => decide (norm3 (mesh.coords.getD i 0 - p) < localSpan))

/-- The per-point normal estimates over the neighbourhood of `p`, as returned
by the mesh collaborator
(`mg.get_normals(mesh.nodes[neighbours_ind], mesh.nodes, mesh.coords,
mesh.trigs)`). -/
noncomputable def neighbourNormals (c : Collab) (mesh : Mesh) (localSpan : ℝ)
    (p : Vec3) : List Vec3 :=
  c.normals ((neighbourIdx mesh localSpan p).map (fun i => mesh.nodes.getD i 0))
    mesh.nodes mesh.coords mesh.trigs

/-- Embedding of `QuadraticDomain._construct_local_quadric(mesh, p)` from domains.py.

The source line `n = normals / nplalg.norm(normals)` turns the collaborator's
normal estimate into a single unit 3-vector.  Modelled from the spec: with
`fieldopt.geometry.mesh` absent from the available sources, the collaborator's
aggregate estimate is modelled as the average of its per-point normal
estimates ("average and normalize to unit length", spec 4.3), so
`n = avg / ‖avg‖`.

The numpy aliasing in the source (`iR = R` then `iR[:3,:3] = iR[:3,:3].T`,
`iT = T` then `iT[:3,3] = -T[:3,3]`) mutates `R` and `T` in place, but only
after `affine = R @ T` was already computed, so the returned forward frame is
`Rot(R₃)·Trans(−p)` with the original rotation block and the returned inverse
frame is `Trans(p)·Rot(R₃ᵀ)`; the final values are embedded directly.
Returns `(C, forward frame, inverse frame)`, or `none` when the unguarded
Rodrigues division degenerates. -/
noncomputable def construct_local_quadric (c : Collab) (mesh : Mesh)
    (localSpan : ℝ) (p : Vec3) : Option (Vec6 × Mat4 × Mat4) :=
  let idx := neighbourIdx mesh localSpan p
  let neighbours := idx.map (fun i => mesh.coords.getD i 0)
  let navg := average (neighbourNormals c mesh localSpan p)
  let n := (norm3 navg)⁻¹ • navg
  match rotate_vec2vec n zvec with
  | none => none
  | some R3 =>
    let Aff := homRot R3 * homTrans (-p)
    let iAff := homTrans p * homRot R3.transpose
    let r_nb := neighbours.map (affine Aff)
    let X : Fin r_nb.length → Vec2 := fun i => ![r_nb.get i 0, r_nb.get i 1]
    let hgt : Fin r_nb.length → ℝ := fun i => r_nb.get i 2
    let C := quad_fit (c.solver r_nb.length) X hgt
    some (C, Aff, iAff)

/-- Embedding of `QuadraticDomain._get_sample(mesh, x, y)` from domains.py: evaluate the
coarse quadric at `(x,y)`, map to global coordinates through the coarse
inverse frame `iRc`, snap to the nearest mesh point, re-fit a fine local
quadric there, evaluate its unit normal at the local origin, map the normal
to global coordinates through the fine inverse frame's rotation block,
normalise it, and push the snapped point out by `distance` along it.
Returns `(sample, fine inverse frame, fine coefficients, fine local
normal)`. -/
noncomputable def get_sample (c : Collab) (mesh : Mesh) (localSpan distance : ℝ)
    (Cc : Vec6) (iRc : Mat4) (x y : ℝ) : Option (Vec3 × Mat4 × Vec6 × Vec3) :=
  let pp := quadratic_surf_position x y Cc
  let p := affine iRc pp
  let v := c.closest p mesh.coords
  match construct_local_quadric c mesh localSpan v with
  | none => none
  | some (C, _, iR) =>
    let n := (compute_principal_dir c.eig 0 0 C).2.2
    let n_r := (mat3of iR).mulVec n
    let n_ru := (norm3 n_r)⁻¹ • n_r
    some (v + distance • n_ru, iR, C, n)

/-- Embedding of `QuadraticDomain.place_coil(mesh, x, y, theta, flip_norm=True)` from
domains.py: sample the surface, compute the interpolated tangent direction
and normal of the fine quadric at its origin, map both through the fine
inverse frame's rotation block, optionally negate the normal
(`normflip = -1 if flip_norm else 1`, default `True`), and assemble the
matsimnibs pose. -/
noncomputable def place_coil (c : Collab) (mesh : Mesh)
    (localSpan distance : ℝ) (Cc : Vec6) (iRc : Mat4) (x y theta : ℝ)
    (flip_norm : optParam Bool true) : Option Mat4 :=
  match get_sample c mesh localSpan distance Cc iRc x y with
  | none => none
  | some (sample, R, C, _) =>
    match quadratic_surf_rotation c.eig 0 0 theta C with
    | none => none
    | some (preaff_rot, preaff_norm) =>
      let rot := (mat3of R).mulVec preaff_rot
      let n := (mat3of R).mulVec preaff_norm
      let normflip : ℝ := if flip_norm then -1 else 1
      some (define_coil_orientation sample rot (normflip • n))

/-! ## Concrete evaluation instance

A small concrete mesh and collaborator assignment on which the whole pipeline
succeeds with rational intermediate values, used to instantiate the
hypotheses of the theorems below at explicit inputs. -/

/-- A one-vertex mesh at the origin. -/
def mesh0 : Mesh := ⟨[![0, 0, 0]], [0], []⟩

/-- The fine-fit coefficient vector returned by the concrete solver:
`f(x,y) = 2x + 2y`. -/
def solC : Vec6 := ![0, 2, 2, 0, 0, 0]

/-- Concrete collaborator assignment: the snap always returns the origin
vertex, the normal estimator returns the single estimate `(0,3,4)`, the
least-squares solver returns `solC`, and the eigendecomposition returns the
identity eigenvector matrix. -/
def collab0 : Collab :=
  ⟨fun _ _ => ![0, 0, 0], fun _ _ _ _ => [![0, 3, 4]],
    fun _ _ _ => solC, fun _ => 1⟩

/-- The Rodrigues rotation taking the unit normal `(0, 3/5, 4/5)` to +Z. -/
def R30 : Mat3 :=
  Matrix.of ![![1, 0, 0], ![0, 4/5, -3/5], ![0, 3/5, 4/5]]

/-- The Rodrigues rotation taking +Z to the fine local normal `nloc0`. -/
def Rp0 : Mat3 :=
  Matrix.of ![![2/3, -1/3, -2/3], ![-1/3, 2/3, -2/3], ![2/3, 2/3, 1/3]]

/-- The fine-fit unit local normal at the origin for coefficients `solC`. -/
def nloc0 : Vec3 := ![-2/3, -2/3, 1/3]

/-- The forward frame of the concrete local quadric. -/
def Aff0 : Mat4 := homRot R30 * homTrans (-![0, 0, 0])

/-- The inverse frame of the concrete local quadric. -/
def iAff0 : Mat4 := homTrans ![0, 0, 0] * homRot R30.transpose

/-- The interpolated in-plane direction rotated onto the local normal frame. -/
def pr0 : Vec3 := ![2/3, -1/3, 2/3]

/-- The global tangent direction of the concrete placement. -/
def rot0 : Vec3 := ![2/3, 2/15, 11/15]

/-- The global surface normal of the concrete placement. -/
def ng0 : Vec3 := ![-2/3, -1/3, 2/3]

/-- The concrete sample position: origin pushed out by distance 2 along the
global unit normal. -/
def sample0 : Vec3 := ![-4/3, -2/3, 4/3]

/-- The pose assembled from the concrete placement (default normal flip). -/
def M0 : Mat4 := define_coil_orientation sample0 rot0 ((-1 : ℝ) • ng0)

/-- The coarse coefficient vector used in the concrete sampling instance. -/
def coarseC0 : Vec6 := fun _ => 0

/-- A concrete probe point for the frame round-trip witness. -/
def wpt : Vec3 := ![1, 2, 3]

/-- A degenerate neighbourhood for the least-squares fit: six copies of the
same planar point `(0,0)`. -/
def X6 : Fin 6 → Vec2 := fun _ => ![0, 0]

/-- An all-ones height vector over the degenerate neighbourhood. -/
def ones6 : Fin 6 → ℝ := fun _ => 1

/-- The minimum-norm least-squares solution of the degenerate system
`designMatrix X6 · x = ones6`. -/
def lsq0 : Vec6 := ![1, 0, 0, 0, 0, 0]

/-- A stand-in for the external least-squares routine at the degenerate
instance; its value there is the one forced by the `MinNormLS` contract. -/
def constSolver6 : Matrix (Fin 6) (Fin 6) ℝ → (Fin 6 → ℝ) → Vec6 :=
  fun _ _ => lsq0

/-- A one-point planar neighbourhood for the planar-fit witness. -/
def X1 : Fin 1 → Vec2 := fun _ => ![0, 0]

/-- A solver stand-in returning the zero coefficient vector. -/
def zeroSolver1 : Matrix (Fin 1) (Fin 6) ℝ → (Fin 1 → ℝ) → Vec6 :=
  fun _ _ => fun _ => 0

/-! ## Basic vector and norm lemmas -/

lemma dot3_self_nonneg (v : Vec3) : 0 ≤ dot3 v v := by
  have h0 := mul_self_nonneg (v 0)
  have h1 := mul_self_nonneg (v 1)
  have h2 := mul_self_nonneg (v 2)
  unfold dot3; linarith

lemma eq_zero_of_dot3_self (v : Vec3) (h : dot3 v v = 0) : v = 0 := by
  unfold dot3 at h
  have h0 := mul_self_nonneg (v 0)
  have h1 := mul_self_nonneg (v 1)
  have h2 := mul_self_nonneg (v 2)
  have e0 : v 0 = 0 := mul_self_eq_zero.mp (le_antisymm (by linarith) h0)
  have e1 : v 1 = 0 := mul_self_eq_zero.mp (le_antisymm (by linarith) h1)
  have e2 : v 2 = 0 := mul_self_eq_zero.mp (le_antisymm (by linarith) h2)
  funext i
  fin_cases i
  · exact e0
  · exact e1
  · exact e2

lemma dot3_self_pos (v : Vec3) (h : v ≠ 0) : 0 < dot3 v v := by
  rcases lt_or_eq_of_le (dot3_self_nonneg v) with hlt | heq
  · exact hlt
  · exact absurd (eq_zero_of_dot3_self v heq.symm) h

lemma norm3_nonneg (v : Vec3) : 0 ≤ norm3 v := Real.sqrt_nonneg _

lemma norm3_mul_self (v : Vec3) : norm3 v * norm3 v = dot3 v v :=
  Real.mul_self_sqrt (dot3_self_nonneg v)

lemma norm3_pos (v : Vec3) (h : v ≠ 0) : 0 < norm3 v :=
  Real.sqrt_pos.mpr (dot3_self_pos v h)

lemma dot3_smul_smul (c d : ℝ) (a b : Vec3) :
    dot3 (c • a) (d • b) = c * d * dot3 a b := by
  simp [dot3, smul_eq_mul]; ring

lemma norm3_smul (c : ℝ) (v : Vec3) : norm3 (c • v) = |c| * norm3 v := by
  unfold norm3
  rw [dot3_smul_smul]
  rw [show c * c * dot3 v v = c ^ 2 * dot3 v v by ring]
  rw [Real.sqrt_mul (sq_nonneg c), Real.sqrt_sq_eq_abs]

lemma dot3_normalize_self (v : Vec3) (h : v ≠ 0) :
    dot3 ((norm3 v)⁻¹ • v) ((norm3 v)⁻¹ • v) = 1 := by
  rw [dot3_smul_smul]
  have hpos := dot3_self_pos v h
  have hn := norm3_mul_self v
  have hnpos := norm3_pos v h
  field_simp
  nlinarith

lemma norm3_eq_one_of_dot3 (v : Vec3) (h : dot3 v v = 1) : norm3 v = 1 := by
  unfold norm3; rw [h, Real.sqrt_one]

lemma norm3_normalize (v : Vec3) (h : v ≠ 0) :
    norm3 ((norm3 v)⁻¹ • v) = 1 :=
  norm3_eq_one_of_dot3 _ (dot3_normalize_self v h)

lemma ne_zero_of_dot3_one (v : Vec3) (h : dot3 v v = 1) : v ≠ 0 := by
  intro h0
  rw [h0] at h
  simp [dot3] at h

lemma dot3_eq_dotProduct (a b : Vec3) :
    dot3 a b = Matrix.dotProduct a b := by
  simp [dot3, Matrix.dotProduct, Fin.sum_univ_three]

lemma dot3_mulVec_of_orth {Q : Mat3} (h : Q.transpose * Q = 1) (a b : Vec3) :
    dot3 (Q.mulVec a) (Q.mulVec b) = dot3 a b := by
  rw [dot3_eq_dotProduct, dot3_eq_dotProduct, Matrix.dotProduct_mulVec]
  rw [show Matrix.vecMul (Q.mulVec a) Q = Q.transpose.mulVec (Q.mulVec a) from
    (Matrix.mulVec_transpose Q (Q.mulVec a)).symm]
  rw [Matrix.mulVec_mulVec, h, Matrix.one_mulVec]

lemma lagrange_cross3 (a b : Vec3) :
    dot3 (cross3 a b) (cross3 a b)
      = dot3 a a * dot3 b b - (dot3 a b) ^ 2 := by
  simp [dot3, cross3]; ring

lemma dot3_cross3_left (a b : Vec3) : dot3 (cross3 a b) a = 0 := by
  simp [dot3, cross3]; ring

lemma dot3_cross3_right (a b : Vec3) : dot3 (cross3 a b) b = 0 := by
  simp [dot3, cross3]; ring

/-! ## Rodrigues rotation lemmas -/

lemma rodrigues_mulVec (v1 v2 : Vec3) (k : ℝ) :
    (1 + skew (cross3 v1 v2) +
        k • (skew (cross3 v1 v2) * skew (cross3 v1 v2))).mulVec v1
      = dot3 v1 v1 • v2 +
        (1 - dot3 v1 v2 - k * dot3 (cross3 v1 v2) (cross3 v1 v2)) • v1 := by
  funext i
  fin_cases i <;>
  · simp [Matrix.mulVec, Matrix.dotProduct, Fin.sum_univ_three, skew, cross3,
      dot3, Matrix.mul_apply, Matrix.add_apply, Matrix.smul_apply,
      Matrix.one_apply, smul_eq_mul]
    ring

lemma skew_transpose (n : Vec3) : (skew n).transpose = -skew n := by
  ext i j
  fin_cases i <;> fin_cases j <;> simp [skew]

lemma skew_cube (n : Vec3) :
    skew n * (skew n * skew n) = (-(dot3 n n)) • skew n := by
  ext i j
  fin_cases i <;> fin_cases j <;>
  · simp [skew, dot3, Matrix.mul_apply, Fin.sum_univ_three]
    ring

lemma rodrigues_RtR (n : Vec3) (k : ℝ) :
    (1 + skew n + k • (skew n * skew n)).transpose *
        (1 + skew n + k • (skew n * skew n))
      = 1 + (2 * k - 1 - k * k * dot3 n n) • (skew n * skew n) := by
  have hT : (1 + skew n + k • (skew n * skew n)).transpose
      = 1 - skew n + k • (skew n * skew n) := by
    rw [Matrix.transpose_add, Matrix.transpose_add, Matrix.transpose_one,
      Matrix.transpose_smul, Matrix.transpose_mul, skew_transpose]
    rw [show -skew n * -skew n = skew n * skew n by noncomm_ring]
    abel
  rw [hT]
  have h4 : skew n * (skew n * (skew n * skew n))
      = (-(dot3 n n)) • (skew n * skew n) := by
    rw [show skew n * (skew n * (skew n * skew n))
        = (skew n * (skew n * skew n)) * skew n by noncomm_ring, skew_cube,
      Matrix.smul_mul]
  simp only [add_mul, sub_mul, mul_add, mul_one, one_mul, Matrix.smul_mul,
    Matrix.mul_smul, smul_smul, mul_assoc]
  rw [skew_cube]
  simp only [Matrix.mul_smul, smul_smul]
  module

lemma rotate_vec2vec_inv {v1 v2 : Vec3} {R : Mat3}
    (h : rotate_vec2vec v1 v2 = some R) :
    ∃ k : ℝ, k * dot3 (cross3 v1 v2) (cross3 v1 v2) = 1 - dot3 v1 v2 ∧
      R = 1 + skew (cross3 v1 v2) +
        k • (skew (cross3 v1 v2) * skew (cross3 v1 v2)) := by
  unfold rotate_vec2vec at h
  by_cases hs : dot3 (cross3 v1 v2) (cross3 v1 v2) = 0
  · simp [hs] at h
  · simp [hs] at h
    exact ⟨(1 - dot3 v1 v2) / dot3 (cross3 v1 v2) (cross3 v1 v2),
      div_mul_cancel₀ _ hs, h.symm⟩

lemma rotate_vec2vec_sinv2_ne {v1 v2 : Vec3} {R : Mat3}
    (h : rotate_vec2vec v1 v2 = some R) :
    dot3 (cross3 v1 v2) (cross3 v1 v2) ≠ 0 := by
  unfold rotate_vec2vec at h
  by_cases hs : dot3 (cross3 v1 v2) (cross3 v1 v2) = 0
  · simp [hs] at h
  · exact hs

lemma rotate_maps {v1 v2 : Vec3} {R : Mat3}
    (h : rotate_vec2vec v1 v2 = some R) (h1 : dot3 v1 v1 = 1) :
    R.mulVec v1 = v2 := by
  obtain ⟨k, hk, hR⟩ := rotate_vec2vec_inv h
  subst hR
  rw [rodrigues_mulVec, h1]
  have hz : (1 - dot3 v1 v2 - k * dot3 (cross3 v1 v2) (cross3 v1 v2)) = 0 := by
    rw [hk]; ring
  rw [hz]
  funext i; simp

lemma rotate_orthogonal {v1 v2 : Vec3} {R : Mat3}
    (h : rotate_vec2vec v1 v2 = some R) (h1 : dot3 v1 v1 = 1)
    (h2 : dot3 v2 v2 = 1) :
    R.transpose * R = 1 := by
  have hs := rotate_vec2vec_sinv2_ne h
  obtain ⟨k, hk, hR⟩ := rotate_vec2vec_inv h
  subst hR
  rw [rodrigues_RtR]
  have hL := lagrange_cross3 v1 v2
  rw [h1, h2] at hL
  have hc : 2 * k - 1 - k * k * dot3 (cross3 v1 v2) (cross3 v1 v2) = 0 := by
    have h0 : (2 * k - 1 - k * k * dot3 (cross3 v1 v2) (cross3 v1 v2)) *
        dot3 (cross3 v1 v2) (cross3 v1 v2) = 0 := by
      have expand : (2 * k - 1 - k * k * dot3 (cross3 v1 v2) (cross3 v1 v2)) *
          dot3 (cross3 v1 v2) (cross3 v1 v2)
          = 2 * (k * dot3 (cross3 v1 v2) (cross3 v1 v2))
            - dot3 (cross3 v1 v2) (cross3 v1 v2)
            - (k * dot3 (cross3 v1 v2) (cross3 v1 v2)) ^ 2 := by ring
      rw [expand, hk, hL]
      ring
    exact (mul_eq_zero.mp h0).resolve_right hs
  rw [hc]
  simp

/-! ## Homogeneous frame lemmas -/

lemma homRot_mul_homRot (A B : Mat3) : homRot A * homRot B = homRot (A * B) := by
  ext i j
  fin_cases i <;> fin_cases j <;>
    simp [homRot, Matrix.mul_apply, Fin.sum_univ_four, Fin.sum_univ_three]

lemma homTrans_mul_homTrans (a b : Vec3) :
    homTrans a * homTrans b = homTrans (a + b) := by
  ext i j
  fin_cases i <;> fin_cases j <;>
    simp [homTrans, Matrix.mul_apply, Fin.sum_univ_four, Matrix.vecHead,
      Matrix.vecTail, add_comm]

lemma homRot_one : homRot 1 = 1 := by
  ext i j
  fin_cases i <;> fin_cases j <;>
    simp [homRot, Matrix.one_apply, Matrix.vecHead, Matrix.vecTail]

lemma homTrans_zero : homTrans 0 = 1 := by
  ext i j
  fin_cases i <;> fin_cases j <;>
    simp [homTrans, Matrix.one_apply, Matrix.vecHead, Matrix.vecTail]

lemma mat3of_homRot_mul_homTrans (R : Mat3) (t : Vec3) :
    mat3of (homRot R * homTrans t) = R := by
  ext i j
  fin_cases i <;> fin_cases j <;>
    simp [mat3of, homRot, homTrans, Matrix.mul_apply, Fin.sum_univ_four,
      Matrix.vecHead, Matrix.vecTail]

lemma mat3of_homTrans_mul_homRot (t : Vec3) (R : Mat3) :
    mat3of (homTrans t * homRot R) = R := by
  ext i j
  fin_cases i <;> fin_cases j <;>
    simp [mat3of, homRot, homTrans, Matrix.mul_apply, Fin.sum_univ_four,
      Matrix.vecHead, Matrix.vecTail]

lemma lastRow_homRot_mul_homTrans (R : Mat3) (t : Vec3) :
    (homRot R * homTrans t) 3 0 = 0 ∧ (homRot R * homTrans t) 3 1 = 0 ∧
      (homRot R * homTrans t) 3 2 = 0 ∧ (homRot R * homTrans t) 3 3 = 1 := by
  refine ⟨?_, ?_, ?_, ?_⟩ <;>
    simp [homRot, homTrans, Matrix.mul_apply, Fin.sum_univ_four,
      Matrix.vecHead, Matrix.vecTail]

lemma affine_one (x : Vec3) : affine 1 x = x := by
  funext i
  fin_cases i <;> simp [affine, Matrix.one_apply]

lemma affine_mul (A B : Mat4) (x : Vec3) (h0 : B 3 0 = 0) (h1 : B 3 1 = 0)
    (h2 : B 3 2 = 0) (h3 : B 3 3 = 1) :
    affine A (affine B x) = affine (A * B) x := by
  funext i
  fin_cases i <;>
  · simp [affine, Matrix.mul_apply, Fin.sum_univ_four, Matrix.vecHead,
      Matrix.vecTail, h0, h1, h2, h3]
    ring

lemma frame_inverse_mul (Q : Mat3) (p : Vec3) (h : Q.transpose * Q = 1) :
    (homTrans p * homRot Q.transpose) * (homRot Q * homTrans (-p)) = 1 := by
  rw [show (homTrans p * homRot Q.transpose) * (homRot Q * homTrans (-p))
      = homTrans p * ((homRot Q.transpose * homRot Q) * homTrans (-p)) by
    noncomm_ring]
  rw [homRot_mul_homRot, h, homRot_one, one_mul, homTrans_mul_homTrans]
  rw [show p + -p = 0 by funext i; simp, homTrans_zero]

/-! ## Pipeline inversion lemmas -/

lemma dot3_zvec : dot3 zvec zvec = 1 := by simp [dot3, zvec]

lemma construct_inv {c : Collab} {mesh : Mesh} {ls : ℝ} {p : Vec3}
    {C : Vec6} {F I : Mat4}
    (h : construct_local_quadric c mesh ls p = some (C, F, I)) :
    ∃ R3 : Mat3,
      rotate_vec2vec
        ((norm3 (average (neighbourNormals c mesh ls p)))⁻¹ •
          average (neighbourNormals c mesh ls p)) zvec = some R3 ∧
      F = homRot R3 * homTrans (-p) ∧
      I = homTrans p * homRot R3.transpose := by
  simp only [construct_local_quadric] at h
  cases hr : rotate_vec2vec
      ((norm3 (average (neighbourNormals c mesh ls p)))⁻¹ •
        average (neighbourNormals c mesh ls p)) zvec with
  | none => rw [hr] at h; simp at h
  | some R3 =>
    rw [hr] at h
    simp only [Option.some.injEq, Prod.mk.injEq] at h
    exact ⟨R3, rfl, h.2.1.symm, h.2.2.symm⟩

lemma construct_navg_ne {c : Collab} {mesh : Mesh} {ls : ℝ} {p : Vec3}
    {C : Vec6} {F I : Mat4}
    (h : construct_local_quadric c mesh ls p = some (C, F, I)) :
    average (neighbourNormals c mesh ls p) ≠ 0 := by
  obtain ⟨R3, hr, _, _⟩ := construct_inv h
  intro h0
  rw [h0] at hr
  have hz : ((norm3 (0 : Vec3))⁻¹ • (0 : Vec3)) = (0 : Vec3) := smul_zero _
  rw [hz] at hr
  have hc : cross3 (0 : Vec3) zvec = 0 := by
    funext i; fin_cases i <;> simp [cross3, zvec]
  have := rotate_vec2vec_sinv2_ne hr
  rw [hc] at this
  simp [dot3] at this

lemma construct_spec {c : Collab} {mesh : Mesh} {ls : ℝ} {p : Vec3}
    {C : Vec6} {F I : Mat4}
    (h : construct_local_quadric c mesh ls p = some (C, F, I)) :
    ∃ R3 : Mat3,
      F = homRot R3 * homTrans (-p) ∧
      I = homTrans p * homRot R3.transpose ∧
      R3.transpose * R3 = 1 ∧ R3 * R3.transpose = 1 ∧
      R3.mulVec ((norm3 (average (neighbourNormals c mesh ls p)))⁻¹ •
        average (neighbourNormals c mesh ls p)) = zvec := by
  obtain ⟨R3, hr, hF, hI⟩ := construct_inv h
  have hnavg := construct_navg_ne h
  have hunit := dot3_normalize_self _ hnavg
  have horth := rotate_orthogonal hr hunit dot3_zvec
  exact ⟨R3, hF, hI, horth, Matrix.mul_eq_one_comm.mp horth,
    rotate_maps hr hunit⟩

lemma get_sample_inv {c : Collab} {mesh : Mesh} {ls d : ℝ} {Cc : Vec6}
    {iRc : Mat4} {x y : ℝ} {s : Vec3} {R : Mat4} {C : Vec6} {n0 : Vec3}
    (h : get_sample c mesh ls d Cc iRc x y = some (s, R, C, n0)) :
    ∃ F : Mat4,
      construct_local_quadric c mesh ls
        (c.closest (affine iRc (quadratic_surf_position x y Cc)) mesh.coords)
        = some (C, F, R) ∧
      n0 = (compute_principal_dir c.eig 0 0 C).2.2 ∧
      s = c.closest (affine iRc (quadratic_surf_position x y Cc)) mesh.coords
        + d • ((norm3 ((mat3of R).mulVec n0))⁻¹ • (mat3of R).mulVec n0) := by
  simp only [get_sample] at h
  cases hc : construct_local_quadric c mesh ls
      (c.closest (affine iRc (quadratic_surf_position x y Cc))
        mesh.coords) with
  | none => rw [hc] at h; simp at h
  | some res =>
    obtain ⟨C', F', iR'⟩ := res
    rw [hc] at h
    simp only [Option.some.injEq, Prod.mk.injEq] at h
    obtain ⟨hs, hR, hC, hn⟩ := h
    subst hR hC hn
    exact ⟨F', rfl, rfl, hs.symm⟩

lemma principal_normal_cross {eig : Mat2 → Mat2} {x y : ℝ} {C : Vec6} :
    (compute_principal_dir eig x y C).2.2
      = (norm3 ![-(2 * C 4 * x + C 1 + C 3 * y),
          -(2 * C 5 * y + C 2 + C 3 * x), 1])⁻¹ •
        ![-(2 * C 4 * x + C 1 + C 3 * y), -(2 * C 5 * y + C 2 + C 3 * x), 1] := by
  have hc : cross3 ![1, 0, 2 * C 4 * x + C 1 + C 3 * y]
      ![0, 1, 2 * C 5 * y + C 2 + C 3 * x]
      = ![-(2 * C 4 * x + C 1 + C 3 * y), -(2 * C 5 * y + C 2 + C 3 * x), 1] := by
    funext i; fin_cases i <;> (simp [cross3]; try ring)
  simp only [compute_principal_dir, hc]

lemma principal_normal_unit (eig : Mat2 → Mat2) (x y : ℝ) (C : Vec6) :
    dot3 (compute_principal_dir eig x y C).2.2
      (compute_principal_dir eig x y C).2.2 = 1 ∧
    0 < (compute_principal_dir eig x y C).2.2 2 := by
  rw [principal_normal_cross]
  set a := 2 * C 4 * x + C 1 + C 3 * y with ha
  set b := 2 * C 5 * y + C 2 + C 3 * x with hb
  have hne : (![-a, -b, 1] : Vec3) ≠ 0 := by
    intro h0
    have := congrFun h0 2
    simp at this
  constructor
  · exact dot3_normalize_self _ hne
  · have hpos := norm3_pos _ hne
    have h2 : ((norm3 ![-a, -b, 1])⁻¹ • (![-a, -b, 1] : Vec3)) 2
        = (norm3 ![-a, -b, 1])⁻¹ := by simp
    rw [h2]
    exact inv_pos.mpr hpos

lemma qsr_inv {eig : Mat2 → Mat2} {x y t : ℝ} {C : Vec6} {pr pn : Vec3}
    (h : quadratic_surf_rotation eig x y t C = some (pr, pn)) :
    ∃ Rz : Mat3,
      rotate_vec2vec zvec (compute_principal_dir eig x y C).2.2 = some Rz ∧
      pn = (compute_principal_dir eig x y C).2.2 ∧
      pr = Rz.mulVec (interpolate_angle
        ![(compute_principal_dir eig x y C).1 0,
          (compute_principal_dir eig x y C).1 1]
        ![(compute_principal_dir eig x y C).2.1 0,
          (compute_principal_dir eig x y C).2.1 1] t 90) := by
  simp only [quadratic_surf_rotation] at h
  cases hr : rotate_vec2vec zvec (compute_principal_dir eig x y C).2.2 with
  | none => rw [hr] at h; simp at h
  | some Rz =>
    rw [hr] at h
    simp only [Option.some.injEq, Prod.mk.injEq] at h
    exact ⟨Rz, rfl, h.2.symm, h.1.symm⟩

lemma interpolate_angle_last (u v : Vec2) (t l : ℝ) :
    interpolate_angle u v t l 2 = 0 := by
  simp [interpolate_angle]

lemma qsr_orth {eig : Mat2 → Mat2} {x y t : ℝ} {C : Vec6} {pr pn : Vec3}
    (h : quadratic_surf_rotation eig x y t C = some (pr, pn)) :
    dot3 pr pn = 0 ∧ dot3 pn pn = 1 := by
  obtain ⟨Rz, hr, hpn, hpr⟩ := qsr_inv h
  have hunit := (principal_normal_unit eig x y C).1
  rw [← hpn] at hunit
  have horth := rotate_orthogonal hr dot3_zvec (hpn ▸ hunit)
  have hmap := rotate_maps hr dot3_zvec
  refine ⟨?_, hunit⟩
  rw [hpr, hpn, ← hmap, dot3_mulVec_of_orth horth]
  simp [dot3, zvec, interpolate_angle_last]

lemma dco_entries (loc rot n : Vec3) :
    colv (define_coil_orientation loc rot n) 0
        = cross3 ((norm3 rot)⁻¹ • rot) ((norm3 n)⁻¹ • n) ∧
      colv (define_coil_orientation loc rot n) 1 = (norm3 rot)⁻¹ • rot ∧
      colv (define_coil_orientation loc rot n) 2 = (norm3 n)⁻¹ • n ∧
      define_coil_orientation loc rot n 3 0 = 0 ∧
      define_coil_orientation loc rot n 3 1 = 0 ∧
      define_coil_orientation loc rot n 3 2 = 0 ∧
      define_coil_orientation loc rot n 3 3 = 1 := by
  refine ⟨?_, ?_, ?_, ?_, ?_, ?_, ?_⟩ <;>
  · first
    | (funext i
       fin_cases i <;>
         simp [colv, define_coil_orientation, Matrix.vecHead, Matrix.vecTail])
    | simp [define_coil_orientation, Matrix.vecHead, Matrix.vecTail]

lemma dco_orthonormal (loc rot n : Vec3) (hr : rot ≠ 0) (hn : n ≠ 0)
    (ho : dot3 rot n = 0) :
    dot3 (colv (define_coil_orientation loc rot n) 0)
        (colv (define_coil_orientation loc rot n) 0) = 1 ∧
      dot3 (colv (define_coil_orientation loc rot n) 1)
        (colv (define_coil_orientation loc rot n) 1) = 1 ∧
      dot3 (colv (define_coil_orientation loc rot n) 2)
        (colv (define_coil_orientation loc rot n) 2) = 1 ∧
      dot3 (colv (define_coil_orientation loc rot n) 0)
        (colv (define_coil_orientation loc rot n) 1) = 0 ∧
      dot3 (colv (define_coil_orientation loc rot n) 0)
        (colv (define_coil_orientation loc rot n) 2) = 0 ∧
      dot3 (colv (define_coil_orientation loc rot n) 1)
        (colv (define_coil_orientation loc rot n) 2) = 0 ∧
      define_coil_orientation loc rot n 3 0 = 0 ∧
      define_coil_orientation loc rot n 3 1 = 0 ∧
      define_coil_orientation loc rot n 3 2 = 0 ∧
      define_coil_orientation loc rot n 3 3 = 1 := by
  obtain ⟨h0, h1, h2, h30, h31, h32, h33⟩ := dco_entries loc rot n
  have dyy : dot3 ((norm3 rot)⁻¹ • rot) ((norm3 rot)⁻¹ • rot) = 1 :=
    dot3_normalize_self rot hr
  have dzz : dot3 ((norm3 n)⁻¹ • n) ((norm3 n)⁻¹ • n) = 1 :=
    dot3_normalize_self n hn
  have dyz : dot3 ((norm3 rot)⁻¹ • rot) ((norm3 n)⁻¹ • n) = 0 := by
    rw [dot3_smul_smul, ho]; ring
  refine ⟨?_, ?_, ?_, ?_, ?_, ?_, h30, h31, h32, h33⟩
  · rw [h0, lagrange_cross3, dyy, dzz, dyz]; ring
  · rw [h1, dyy]
  · rw [h2, dzz]
  · rw [h0, h1, dot3_cross3_left]
  · rw [h0, h2, dot3_cross3_right]
  · rw [h1, h2, dyz]

/-! ## Least-squares helper lemmas -/

lemma residSq_nonneg {m : ℕ} (A : Matrix (Fin m) (Fin 6) ℝ) (b : Fin m → ℝ)
    (x : Vec6) : 0 ≤ residSq A b x :=
  Finset.sum_nonneg fun i _ => sq_nonneg _

lemma residSq_zero_zero {m : ℕ} (A : Matrix (Fin m) (Fin 6) ℝ) :
    residSq A 0 0 = 0 := by
  unfold residSq
  simp [Matrix.mulVec_zero]

lemma normSq6_nonneg (x : Vec6) : 0 ≤ normSq6 x :=
  Finset.sum_nonneg fun i _ => sq_nonneg _

lemma normSq6_zero : normSq6 0 = 0 := by simp [normSq6]

lemma normSq6_eq_zero {x : Vec6} (h : normSq6 x = 0) : ∀ i, x i = 0 := by
  intro i
  have hx := (Finset.sum_eq_zero_iff_of_nonneg
    (fun j _ => sq_nonneg (x j))).mp h i (Finset.mem_univ i)
  exact pow_eq_zero_iff two_ne_zero |>.mp hx

/-! ## Claim theorems -/

/-- C9: for every coefficient vector `C` and every `(x, y)`, the normal
returned by `compute_principal_dir` is unit length and its third component is
strictly positive; the unnormalised normal `r_x × r_y` has z-component exactly
1, so the local normal of the height-field quadric never points into the −Z
half-space of the local frame. -/
theorem principal_dir_normal_unit_and_up (eig : Mat2 → Mat2) (x y : ℝ)
    (C : Vec6) :
    norm3 (compute_principal_dir eig x y C).2.2 = 1 ∧
      0 < (compute_principal_dir eig x y C).2.2 2 ∧
      cross3 ![1, 0, 2 * C 4 * x + C 1 + C 3 * y]
        ![0, 1, 2 * C 5 * y + C 2 + C 3 * x] 2 = 1 := by
  obtain ⟨hd, hp⟩ := principal_normal_unit eig x y C
  refine ⟨norm3_eq_one_of_dot3 _ hd, hp, ?_⟩
  simp [cross3]

/-- C7: for orthogonal unit tangent vectors `u`, `v` and period `P > 0`,
`interpolate_angle` returns `u` (0-padded) at `t = 0` and `v` (0-padded) at
`t = P`, the result being `cos θ · u + sin θ · v` with `θ = (t/P)·(π/2)`. -/
theorem interpolate_angle_boundary (u v : Vec2) (P : ℝ) (hu : dot2 u u = 1)
    (hv : dot2 v v = 1) (ho : dot2 u v = 0) (hP : 0 < P) :
    interpolate_angle u v 0 P = lift2 u ∧
      interpolate_angle u v P P = lift2 v := by
  constructor
  · have h0 : (0 / P) * (Real.pi / 2) = 0 := by rw [zero_div]; ring
    funext i
    fin_cases i <;> simp [interpolate_angle, lift2, h0]
  · have h1 : (P / P) * (Real.pi / 2) = Real.pi / 2 := by
      rw [div_self hP.ne']; ring
    funext i
    fin_cases i <;> simp [interpolate_angle, lift2, h1]

/-- Witness for C7 at `u = (1,0)`, `v = (0,1)`, `P = 90`. -/
theorem interpolate_angle_boundary_witness :
    dot2 ![1, 0] ![1, 0] = 1 ∧ dot2 ![0, 1] ![0, 1] = 1 ∧
      dot2 ![1, 0] ![0, 1] = 0 ∧ (0 : ℝ) < 90 ∧
      interpolate_angle ![1, 0] ![0, 1] 0 90 = lift2 ![1, 0] ∧
      interpolate_angle ![1, 0] ![0, 1] 90 90 = lift2 ![0, 1] :=
  ⟨by norm_num [dot2], by norm_num [dot2], by norm_num [dot2], by norm_num,
    (interpolate_angle_boundary ![1, 0] ![0, 1] 90 (by norm_num [dot2])
      (by norm_num [dot2]) (by norm_num [dot2]) (by norm_num)).1,
    (interpolate_angle_boundary ![1, 0] ![0, 1] 90 (by norm_num [dot2])
      (by norm_num [dot2]) (by norm_num [dot2]) (by norm_num)).2⟩

/-- C2 (failing input): at the parallel input `v1 = v2 = (0,0,1)` the source
`rotate_vec2vec` computes `n = (0,0,0)`, `sin²θ = 0`, and divides
`(1−cosθ)/sin²θ = 0/0`, producing a matrix of NaN entries rather than the
identity — modelled here as the `none` outcome of the embedded function. -/
theorem rotate_vec2vec_parallel_degenerate :
    rotate_vec2vec ![0, 0, 1] ![0, 0, 1] = none := by
  have hc : cross3 ![0, 0, 1] ![0, 0, 1] = 0 := by
    funext i; fin_cases i <;> simp [cross3]
  simp only [rotate_vec2vec, hc]
  simp [dot3]

/-- C8: when the height vector is identically zero (all neighbourhood points
lie exactly on the fit plane), any solver output satisfying the documented
minimum-norm least-squares contract makes `quad_fit` return a coefficient
vector whose `b, c, d, e, f` entries are all zero — a flat surface. -/
theorem quad_fit_planar_flat {m : ℕ} (X : Fin m → Vec2)
    (solver : Matrix (Fin m) (Fin 6) ℝ → (Fin m → ℝ) → Vec6)
    (h : MinNormLS (designMatrix X) 0 (solver (designMatrix X) 0)) :
    quad_fit solver X 0 1 = 0 ∧ quad_fit solver X 0 2 = 0 ∧
      quad_fit solver X 0 3 = 0 ∧ quad_fit solver X 0 4 = 0 ∧
      quad_fit solver X 0 5 = 0 := by
  have hzero : ∀ i, solver (designMatrix X) 0 i = 0 := by
    have hmin : ∀ z, residSq (designMatrix X) 0 0 ≤ residSq (designMatrix X) 0 z := by
      intro z
      rw [residSq_zero_zero]
      exact residSq_nonneg _ _ _
    have hle := h.2 0 hmin
    rw [normSq6_zero] at hle
    exact normSq6_eq_zero (le_antisymm hle (normSq6_nonneg _))
  exact ⟨hzero 1, hzero 2, hzero 3, hzero 4, hzero 5⟩

/-- Witness for C8 at the one-point planar neighbourhood `X1` with the zero
solver. -/
theorem quad_fit_planar_flat_witness :
    MinNormLS (designMatrix X1) 0 (zeroSolver1 (designMatrix X1) 0) ∧
      quad_fit zeroSolver1 X1 0 1 = 0 ∧ quad_fit zeroSolver1 X1 0 2 = 0 ∧
      quad_fit zeroSolver1 X1 0 3 = 0 ∧ quad_fit zeroSolver1 X1 0 4 = 0 ∧
      quad_fit zeroSolver1 X1 0 5 = 0 := by
  have hM : MinNormLS (designMatrix X1) 0 (zeroSolver1 (designMatrix X1) 0) := by
    constructor
    · intro z
      show residSq (designMatrix X1) 0 0 ≤ residSq (designMatrix X1) 0 z
      rw [residSq_zero_zero]
      exact residSq_nonneg _ _ _
    · intro z hz
      show normSq6 0 ≤ normSq6 z
      rw [normSq6_zero]
      exact normSq6_nonneg _
  exact ⟨hM, quad_fit_planar_flat X1 zeroSolver1 hM⟩

/-! ## The degenerate least-squares instance for C3 -/

lemma designX6_row (i : Fin 6) :
    designMatrix X6 i 0 = 1 ∧ designMatrix X6 i 1 = 0 ∧
      designMatrix X6 i 2 = 0 ∧ designMatrix X6 i 3 = 0 ∧
      designMatrix X6 i 4 = 0 ∧ designMatrix X6 i 5 = 0 :=
  ⟨rfl, rfl, rfl, by show (0:ℝ) * 0 = 0; norm_num,
    by show (0:ℝ) ^ 2 = 0; norm_num, by show (0:ℝ) ^ 2 = 0; norm_num⟩

lemma mulVec_designX6 (x : Vec6) (i : Fin 6) :
    (designMatrix X6).mulVec x i = x 0 := by
  obtain ⟨h0, h1, h2, h3, h4, h5⟩ := designX6_row i
  simp only [Matrix.mulVec, Matrix.dotProduct, Fin.sum_univ_six, h0, h1, h2,
    h3, h4, h5]
  ring

lemma residSq_X6 (x : Vec6) :
    residSq (designMatrix X6) ones6 x = 6 * (x 0 - 1) ^ 2 := by
  unfold residSq
  simp only [mulVec_designX6, ones6]
  rw [Fin.sum_univ_six]
  ring

lemma lsq0_comp : lsq0 0 = 1 ∧ lsq0 1 = 0 ∧ lsq0 2 = 0 ∧ lsq0 3 = 0 ∧
    lsq0 4 = 0 ∧ lsq0 5 = 0 :=
  ⟨rfl, rfl, rfl, rfl, rfl, rfl⟩

lemma residSq_X6_lsq0 : residSq (designMatrix X6) ones6 lsq0 = 0 := by
  rw [residSq_X6, lsq0_comp.1]
  norm_num

lemma det_designX6 : (designMatrix X6).det = 0 :=
  Matrix.det_eq_zero_of_column_eq_zero 1 (fun i => (designX6_row i).2.1)

lemma normSq6_lsq0 : normSq6 lsq0 = 1 := by
  obtain ⟨h0, h1, h2, h3, h4, h5⟩ := lsq0_comp
  simp only [normSq6, Fin.sum_univ_six, h0, h1, h2, h3, h4, h5]
  norm_num

lemma minimizer_X6_eq_one {y : Vec6}
    (hy : ∀ z, residSq (designMatrix X6) ones6 y
      ≤ residSq (designMatrix X6) ones6 z) : y 0 = 1 := by
  have h1 : residSq (designMatrix X6) ones6 y ≤ 0 := by
    have := hy lsq0
    rwa [residSq_X6_lsq0] at this
  have h3 : residSq (designMatrix X6) ones6 y = 0 :=
    le_antisymm h1 (residSq_nonneg _ _ _)
  rw [residSq_X6] at h3
  nlinarith [sq_nonneg (y 0 - 1)]

lemma minNorm_X6_lsq0 : MinNormLS (designMatrix X6) ones6 lsq0 := by
  constructor
  · intro y
    rw [residSq_X6_lsq0]
    exact residSq_nonneg _ _ _
  · intro y hy
    have hy0 := minimizer_X6_eq_one hy
    rw [normSq6_lsq0]
    have hexp : normSq6 y
        = y 0 ^ 2 + y 1 ^ 2 + y 2 ^ 2 + y 3 ^ 2 + y 4 ^ 2 + y 5 ^ 2 := by
      simp [normSq6, Fin.sum_univ_six]
    rw [hexp, hy0]
    nlinarith [sq_nonneg (y 1), sq_nonneg (y 2), sq_nonneg (y 3),
      sq_nonneg (y 4), sq_nonneg (y 5)]

lemma sq_le_zero_eq_zero {a : ℝ} (ha : a ^ 2 ≤ 0) : a = 0 :=
  pow_eq_zero_iff two_ne_zero |>.mp (le_antisymm ha (sq_nonneg a))

lemma minNorm_X6_unique (x : Vec6)
    (h : MinNormLS (designMatrix X6) ones6 x) : x = lsq0 := by
  have hx0 := minimizer_X6_eq_one h.1
  have hmin : ∀ z, residSq (designMatrix X6) ones6 lsq0
      ≤ residSq (designMatrix X6) ones6 z := fun z => by
    rw [residSq_X6_lsq0]; exact residSq_nonneg _ _ _
  have hle := h.2 lsq0 hmin
  rw [normSq6_lsq0] at hle
  have hexp : normSq6 x
      = x 0 ^ 2 + x 1 ^ 2 + x 2 ^ 2 + x 3 ^ 2 + x 4 ^ 2 + x 5 ^ 2 := by
    simp [normSq6, Fin.sum_univ_six]
  rw [hexp, hx0] at hle
  have s1 := sq_nonneg (x 1)
  have s2 := sq_nonneg (x 2)
  have s3 := sq_nonneg (x 3)
  have s4 := sq_nonneg (x 4)
  have s5 := sq_nonneg (x 5)
  have e1 : x 1 = 0 := sq_le_zero_eq_zero (by nlinarith)
  have e2 : x 2 = 0 := sq_le_zero_eq_zero (by nlinarith)
  have e3 : x 3 = 0 := sq_le_zero_eq_zero (by nlinarith)
  have e4 : x 4 = 0 := sq_le_zero_eq_zero (by nlinarith)
  have e5 : x 5 = 0 := sq_le_zero_eq_zero (by nlinarith)
  funext j
  fin_cases j
  · show x 0 = lsq0 0
    rw [hx0, lsq0_comp.1]
  · show x 1 = lsq0 1
    rw [e1, lsq0_comp.2.1]
  · show x 2 = lsq0 2
    rw [e2, lsq0_comp.2.2.1]
  · show x 3 = lsq0 3
    rw [e3, lsq0_comp.2.2.2.1]
  · show x 4 = lsq0 4
    rw [e4, lsq0_comp.2.2.2.2.1]
  · show x 5 = lsq0 5
    rw [e5, lsq0_comp.2.2.2.2.2]

/-- C3 (counterexample): at the rank-deficient neighbourhood `X6` (six copies
of the planar point `(0,0)`, singular design matrix), no error is raised: the
external solver's documented minimum-norm contract holds of the definite
coefficient vector `lsq0`, and `quad_fit` returns it unconditionally — there
is no rank check and no failure path in `quad_fit` or its callers. -/
theorem quad_fit_rank_deficient_cex :
    (designMatrix X6).det = 0 ∧ MinNormLS (designMatrix X6) ones6 lsq0 ∧
      quad_fit constSolver6 X6 ones6 = lsq0 :=
  ⟨det_designX6, minNorm_X6_lsq0, rfl⟩

/-- C3 (amended): when the design matrix is rank-deficient, `quad_fit` does
not fail: for every solver satisfying the documented minimum-norm
least-squares contract at the degenerate instance, `quad_fit` silently
returns the minimum-norm coefficient vector of the degenerate system. -/
theorem quad_fit_rank_deficient_silent
    (solver : Matrix (Fin 6) (Fin 6) ℝ → (Fin 6 → ℝ) → Vec6)
    (h : MinNormLS (designMatrix X6) ones6 (solver (designMatrix X6) ones6)) :
    (designMatrix X6).det = 0 ∧ quad_fit solver X6 ones6 = lsq0 :=
  ⟨det_designX6, minNorm_X6_unique _ h⟩

/-- Witness for the amended C3 at the concrete solver `constSolver6`. -/
theorem quad_fit_rank_deficient_silent_witness :
    MinNormLS (designMatrix X6) ones6 (constSolver6 (designMatrix X6) ones6) ∧
      (designMatrix X6).det = 0 ∧ quad_fit constSolver6 X6 ones6 = lsq0 :=
  ⟨minNorm_X6_lsq0,
    quad_fit_rank_deficient_silent constSolver6 minNorm_X6_lsq0⟩

lemma dot3_smul_right (c : ℝ) (a b : Vec3) :
    dot3 a (c • b) = c * dot3 a b := by
  simp [dot3, smul_eq_mul]; ring

lemma norm3_neg (n : Vec3) : norm3 (-n) = norm3 n := by
  rw [show -n = (-1 : ℝ) • n by funext i; simp, norm3_smul]
  norm_num

lemma dco_col2_neg (loc rot n : Vec3) :
    colv (define_coil_orientation loc rot ((-1 : ℝ) • n)) 2
      = -((norm3 n)⁻¹ • n) := by
  rw [(dco_entries loc rot ((-1 : ℝ) • n)).2.2.1, norm3_smul, smul_smul]
  simp [abs_neg, abs_one, one_mul, mul_neg_one, neg_smul]

/-- C4: for every forward/inverse frame pair built by
`_construct_local_quadric`, the inverse affine is the exact algebraic inverse
of the forward affine: the matrices multiply to the identity, and applying
the inverse frame after the forward frame to any point reproduces it (the
rotation block of a successful construction is orthonormal, which the proof
derives rather than assumes). -/
theorem construct_frames_inverse {c : Collab} {mesh : Mesh} {ls : ℝ}
    {p : Vec3} {C : Vec6} {F I : Mat4}
    (h : construct_local_quadric c mesh ls p = some (C, F, I)) :
    I * F = 1 ∧ ∀ v : Vec3, affine I (affine F v) = v := by
  obtain ⟨R3, hF, hI, horth, _, _⟩ := construct_spec h
  subst hF hI
  have hIF := frame_inverse_mul R3 p horth
  refine ⟨hIF, fun v => ?_⟩
  obtain ⟨l0, l1, l2, l3⟩ := lastRow_homRot_mul_homTrans R3 (-p)
  rw [affine_mul _ _ _ l0 l1 l2 l3, hIF, affine_one]

/-- C6: in `_construct_local_quadric` the normal used to build the forward
frame is the collaborator's per-point normal estimate over the neighbourhood,
averaged and normalised to a unit 3-vector, and the forward frame's rotation
block maps this unit normal onto the canonical +Z axis. -/
theorem construct_normal_to_z {c : Collab} {mesh : Mesh} {ls : ℝ} {p : Vec3}
    {C : Vec6} {F I : Mat4}
    (h : construct_local_quadric c mesh ls p = some (C, F, I)) :
    (mat3of F).mulVec
        ((norm3 (average (neighbourNormals c mesh ls p)))⁻¹ •
          average (neighbourNormals c mesh ls p)) = zvec := by
  obtain ⟨R3, hF, _, _, _, hmap⟩ := construct_spec h
  subst hF
  rw [mat3of_homRot_mul_homTrans]
  exact hmap

/-- C5: for every successful `_get_sample` call, the returned position equals
the snapped mesh point plus `distance` times a unit vector, so its Euclidean
distance from the snapped point is exactly `|distance|`. -/
theorem get_sample_standoff {c : Collab} {mesh : Mesh} {ls d : ℝ} {Cc : Vec6}
    {iRc : Mat4} {x y : ℝ} {s : Vec3} {R : Mat4} {C : Vec6} {n0 : Vec3}
    (h : get_sample c mesh ls d Cc iRc x y = some (s, R, C, n0)) :
    norm3 (s - c.closest (affine iRc (quadratic_surf_position x y Cc))
      mesh.coords) = |d| := by
  obtain ⟨F, hcon, hn0, hsam⟩ := get_sample_inv h
  obtain ⟨R3, hF, hI, horth, horth2, _⟩ := construct_spec hcon
  have hm : mat3of R = R3.transpose := by
    rw [hI]; exact mat3of_homTrans_mul_homRot _ _
  have hnu : dot3 n0 n0 = 1 := by
    rw [hn0]; exact (principal_normal_unit _ 0 0 C).1
  have horthT : (R3.transpose).transpose * R3.transpose = 1 := by
    rw [Matrix.transpose_transpose]; exact horth2
  have hnr : dot3 ((mat3of R).mulVec n0) ((mat3of R).mulVec n0) = 1 := by
    rw [hm, dot3_mulVec_of_orth horthT, hnu]
  have hnrne : (mat3of R).mulVec n0 ≠ 0 := ne_zero_of_dot3_one _ hnr
  have hnru : norm3 ((norm3 ((mat3of R).mulVec n0))⁻¹ •
      (mat3of R).mulVec n0) = 1 := norm3_normalize _ hnrne
  rw [hsam, add_sub_cancel_left, norm3_smul, hnru, mul_one]

/-- C10: `place_coil` with the flip argument omitted is the call with
`flip_norm = True`; under the default the pose's z column is the negation of
the normalised global surface normal, whereas `flip_norm = False` keeps the
un-negated normalised normal. -/
theorem place_coil_flip_default {c : Collab} {mesh : Mesh} {ls d : ℝ}
    {Cc : Vec6} {iRc : Mat4} {x y theta : ℝ} {s : Vec3} {R : Mat4} {C : Vec6}
    {n0 pr pn : Vec3}
    (hs : get_sample c mesh ls d Cc iRc x y = some (s, R, C, n0))
    (hq : quadratic_surf_rotation c.eig 0 0 theta C = some (pr, pn)) :
    place_coil c mesh ls d Cc iRc x y theta
        = place_coil c mesh ls d Cc iRc x y theta true ∧
      (∀ M, place_coil c mesh ls d Cc iRc x y theta = some M →
        colv M 2 = -((norm3 ((mat3of R).mulVec pn))⁻¹ •
          (mat3of R).mulVec pn)) ∧
      (∀ M, place_coil c mesh ls d Cc iRc x y theta false = some M →
        colv M 2 = (norm3 ((mat3of R).mulVec pn))⁻¹ •
          (mat3of R).mulVec pn) := by
  have heval : ∀ b : Bool, place_coil c mesh ls d Cc iRc x y theta b
      = some (define_coil_orientation s ((mat3of R).mulVec pr)
          ((if b then (-1 : ℝ) else 1) • (mat3of R).mulVec pn)) := by
    intro b
    simp only [place_coil, hs, hq]
  refine ⟨rfl, ?_, ?_⟩
  · intro M hM
    rw [heval true] at hM
    rw [show (if (true : Bool) = true then (-1 : ℝ) else 1) = -1 from rfl]
      at hM
    simp only [Option.some.injEq] at hM
    subst hM
    exact dco_col2_neg _ _ _
  · intro M hM
    rw [heval false] at hM
    rw [show (if (false : Bool) = true then (-1 : ℝ) else 1) = 1 from rfl]
      at hM
    simp only [Option.some.injEq, one_smul] at hM
    subst hM
    exact (dco_entries _ _ _).2.2.1

/-- C1: every pose returned by `place_coil` (assembled by
`define_coil_orientation`) has a 3×3 rotation block with unit-length,
pairwise-orthogonal columns — the tangent y axis, the possibly flipped
normal z axis, and their cross product as the x axis — and last row
`(0,0,0,1)`. -/
theorem place_coil_pose_orthonormal {c : Collab} {mesh : Mesh} {ls d : ℝ}
    {Cc : Vec6} {iRc : Mat4} {x y theta : ℝ} {flip : Bool} {s : Vec3}
    {R : Mat4} {C : Vec6} {n0 pr pn : Vec3} {M : Mat4}
    (hs : get_sample c mesh ls d Cc iRc x y = some (s, R, C, n0))
    (hq : quadratic_surf_rotation c.eig 0 0 theta C = some (pr, pn))
    (hrot : (mat3of R).mulVec pr ≠ 0)
    (hM : place_coil c mesh ls d Cc iRc x y theta flip = some M) :
    dot3 (colv M 0) (colv M 0) = 1 ∧ dot3 (colv M 1) (colv M 1) = 1 ∧
      dot3 (colv M 2) (colv M 2) = 1 ∧ dot3 (colv M 0) (colv M 1) = 0 ∧
      dot3 (colv M 0) (colv M 2) = 0 ∧ dot3 (colv M 1) (colv M 2) = 0 ∧
      M 3 0 = 0 ∧ M 3 1 = 0 ∧ M 3 2 = 0 ∧ M 3 3 = 1 := by
  simp only [place_coil, hs, hq, Option.some.injEq] at hM
  obtain ⟨F, hcon, hn0, hsam⟩ := get_sample_inv hs
  obtain ⟨R3, hF, hI, horth, horth2, _⟩ := construct_spec hcon
  have hm : mat3of R = R3.transpose := by
    rw [hI]; exact mat3of_homTrans_mul_homRot _ _
  have horthT : (R3.transpose).transpose * R3.transpose = 1 := by
    rw [Matrix.transpose_transpose]; exact horth2
  obtain ⟨hprpn, hpnu⟩ := qsr_orth hq
  have hng : dot3 ((mat3of R).mulVec pn) ((mat3of R).mulVec pn) = 1 := by
    rw [hm, dot3_mulVec_of_orth horthT, hpnu]
  have heps : (if flip then (-1 : ℝ) else 1) ≠ 0 := by
    cases flip <;> norm_num
  have hn' : (if flip then (-1 : ℝ) else 1) • (mat3of R).mulVec pn ≠ 0 :=
    smul_ne_zero heps (ne_zero_of_dot3_one _ hng)
  have hortho : dot3 ((mat3of R).mulVec pr)
      ((if flip then (-1 : ℝ) else 1) • (mat3of R).mulVec pn) = 0 := by
    rw [dot3_smul_right, hm, dot3_mulVec_of_orth horthT, hprpn, mul_zero]
  subst hM
  exact dco_orthonormal _ _ _ hrot hn' hortho

/-! ## Evaluation of the concrete instance -/

lemma collab0_closest (q : Vec3) (pts : List Vec3) :
    collab0.closest q pts = ![0, 0, 0] := rfl

lemma collab0_eig (P : Mat2) : collab0.eig P = 1 := rfl

lemma sqrt_25 : Real.sqrt 25 = 5 := by
  rw [show (25 : ℝ) = 5 ^ 2 by norm_num, Real.sqrt_sq (by norm_num : (0:ℝ) ≤ 5)]

lemma sqrt_9 : Real.sqrt 9 = 3 := by
  rw [show (9 : ℝ) = 3 ^ 2 by norm_num, Real.sqrt_sq (by norm_num : (0:ℝ) ≤ 3)]

lemma navg_eval :
    (norm3 (average (neighbourNormals collab0 mesh0 10 ![0, 0, 0])))⁻¹ •
        average (neighbourNormals collab0 mesh0 10 ![0, 0, 0])
      = ![0, 3/5, 4/5] := by
  have h1 : neighbourNormals collab0 mesh0 10 ![0, 0, 0] = [![0, 3, 4]] := rfl
  have h2 : average [(![0, 3, 4] : Vec3)] = ![0, 3, 4] := by
    simp [average]
  have h3 : norm3 ![0, 3, 4] = 5 := by
    have : dot3 ![0, 3, 4] ![0, 3, 4] = 25 := by norm_num [dot3]
    rw [norm3, this, sqrt_25]
  rw [h1, h2, h3]
  funext i
  fin_cases i <;> norm_num

lemma rotate_vec2vec_eval (v1 v2 : Vec3) (Rv : Mat3)
    (hs : dot3 (cross3 v1 v2) (cross3 v1 v2) ≠ 0)
    (hR : 1 + skew (cross3 v1 v2) +
        ((1 - dot3 v1 v2) / dot3 (cross3 v1 v2) (cross3 v1 v2)) •
          (skew (cross3 v1 v2) * skew (cross3 v1 v2)) = Rv) :
    rotate_vec2vec v1 v2 = some Rv := by
  simp only [rotate_vec2vec, if_neg hs, hR]

lemma rv2v_n0 : rotate_vec2vec ![0, 3/5, 4/5] zvec = some R30 := by
  apply rotate_vec2vec_eval
  · have hc : cross3 ![0, 3/5, 4/5] zvec = ![3/5, 0, 0] := by
      funext i; fin_cases i <;> norm_num [cross3, zvec]
    rw [hc]
    norm_num [dot3]
  · have hc : cross3 ![0, 3/5, 4/5] zvec = ![3/5, 0, 0] := by
      funext i; fin_cases i <;> norm_num [cross3, zvec]
    have hd : dot3 ![0, 3/5, 4/5] zvec = 4/5 := by norm_num [dot3, zvec]
    have hdc : dot3 ![(3:ℝ)/5, 0, 0] ![(3:ℝ)/5, 0, 0] = 9/25 := by
      norm_num [dot3]
    rw [hc, hd, hdc]
    ext i j
    fin_cases i <;> fin_cases j <;>
      norm_num [skew, R30, Matrix.mul_apply, Matrix.add_apply,
        Matrix.smul_apply, Matrix.one_apply, Fin.sum_univ_three,
        Matrix.vecHead, Matrix.vecTail, Fin.ext_iff]

lemma rv2v_z_nloc : rotate_vec2vec zvec nloc0 = some Rp0 := by
  apply rotate_vec2vec_eval
  · have hc : cross3 zvec nloc0 = ![2/3, -2/3, 0] := by
      funext i; fin_cases i <;> norm_num [cross3, zvec, nloc0]
    rw [hc]
    norm_num [dot3]
  · have hc : cross3 zvec nloc0 = ![2/3, -2/3, 0] := by
      funext i; fin_cases i <;> norm_num [cross3, zvec, nloc0]
    have hd : dot3 zvec nloc0 = 1/3 := by norm_num [dot3, zvec, nloc0]
    have hdc : dot3 ![(2:ℝ)/3, -2/3, 0] ![(2:ℝ)/3, -2/3, 0] = 8/9 := by
      norm_num [dot3]
    rw [hc, hd, hdc]
    ext i j
    fin_cases i <;> fin_cases j <;>
      norm_num [skew, Rp0, Matrix.mul_apply, Matrix.add_apply,
        Matrix.smul_apply, Matrix.one_apply, Fin.sum_univ_three,
        Matrix.vecHead, Matrix.vecTail, Fin.ext_iff]

lemma clq_eval :
    construct_local_quadric collab0 mesh0 10 ![0, 0, 0]
      = some (solC, Aff0, iAff0) := by
  simp only [construct_local_quadric, navg_eval, rv2v_n0]
  rfl

lemma solC_comp : solC 0 = 0 ∧ solC 1 = 2 ∧ solC 2 = 2 ∧ solC 3 = 0 ∧
    solC 4 = 0 ∧ solC 5 = 0 :=
  ⟨rfl, rfl, rfl, rfl, rfl, rfl⟩

lemma cpd_n : (compute_principal_dir collab0.eig 0 0 solC).2.2 = nloc0 := by
  obtain ⟨s0, s1, s2, s3, s4, s5⟩ := solC_comp
  rw [principal_normal_cross]
  have ha : -(2 * solC 4 * 0 + solC 1 + solC 3 * 0) = (-2 : ℝ) := by
    rw [s1, s3, s4]; ring
  have hb : -(2 * solC 5 * 0 + solC 2 + solC 3 * 0) = (-2 : ℝ) := by
    rw [s2, s3, s5]; ring
  rw [ha, hb]
  have hn : norm3 ![-2, -2, 1] = 3 := by
    have : dot3 ![-2, -2, 1] ![-2, -2, 1] = 9 := by norm_num [dot3]
    rw [norm3, this, sqrt_9]
  rw [hn]
  funext i
  fin_cases i <;> norm_num [nloc0]

lemma cpd_v1 : (compute_principal_dir collab0.eig 0 0 solC).1 = ![1, 0, 0] := by
  simp only [compute_principal_dir, collab0_eig]
  funext i
  fin_cases i <;> simp [Matrix.one_apply]

lemma cpd_v2 :
    (compute_principal_dir collab0.eig 0 0 solC).2.1 = ![0, 1, 0] := by
  simp only [compute_principal_dir, collab0_eig]
  funext i
  fin_cases i <;> simp [Matrix.one_apply]

lemma qsp_eval : quadratic_surf_position 0 0 coarseC0 = ![0, 0, 0] := by
  funext i
  fin_cases i <;>
    norm_num [quadratic_surf_position, quadratic_surf, coarseC0]

lemma mat3of_iAff0 : mat3of iAff0 = R30.transpose :=
  mat3of_homTrans_mul_homRot ![0, 0, 0] R30.transpose

lemma ngr_eval : (R30.transpose).mulVec nloc0 = ng0 := by
  funext i
  fin_cases i <;>
    norm_num [R30, nloc0, ng0, Matrix.mulVec, Matrix.dotProduct,
      Matrix.transpose_apply, Fin.sum_univ_three, Matrix.vecHead,
      Matrix.vecTail]

lemma norm3_ng0 : norm3 ng0 = 1 :=
  norm3_eq_one_of_dot3 _ (by norm_num [dot3, ng0])

lemma gs_eval :
    get_sample collab0 mesh0 10 2 coarseC0 1 0 0
      = some (sample0, iAff0, solC, nloc0) := by
  simp only [get_sample, qsp_eval, affine_one, collab0_closest, clq_eval,
    cpd_n, mat3of_iAff0, ngr_eval, norm3_ng0, inv_one, one_smul]
  rw [show (![0, 0, 0] : Vec3) + (2 : ℝ) • ng0 = sample0 from by
    funext i; fin_cases i <;> norm_num [ng0, sample0]]

lemma interp_eval :
    interpolate_angle ![(1 : ℝ), 0] ![(0 : ℝ), 1] 0 90 = ![1, 0, 0] := by
  funext i
  fin_cases i <;> norm_num [interpolate_angle]

lemma pr_eval : Rp0.mulVec ![1, 0, 0] = pr0 := by
  funext i
  fin_cases i <;>
    norm_num [Rp0, pr0, Matrix.mulVec, Matrix.dotProduct,
      Fin.sum_univ_three, Matrix.vecHead, Matrix.vecTail]

lemma qsr_eval :
    quadratic_surf_rotation collab0.eig 0 0 0 solC = some (pr0, nloc0) := by
  simp only [quadratic_surf_rotation, cpd_n, cpd_v1, cpd_v2,
    Matrix.cons_val_zero, Matrix.cons_val_one, Matrix.head_cons,
    rv2v_z_nloc, interp_eval, pr_eval]

lemma rot_eval : (R30.transpose).mulVec pr0 = rot0 := by
  funext i
  fin_cases i <;>
    norm_num [R30, pr0, rot0, Matrix.mulVec, Matrix.dotProduct,
      Matrix.transpose_apply, Fin.sum_univ_three, Matrix.vecHead,
      Matrix.vecTail]

lemma pc_eval :
    place_coil collab0 mesh0 10 2 coarseC0 1 0 0 0 = some M0 := by
  simp only [place_coil, gs_eval, qsr_eval, if_true]
  rw [mat3of_iAff0, rot_eval, ngr_eval]
  rfl

/-- Witness for C4 at the concrete constructed frame pair and probe point. -/
theorem construct_frames_inverse_witness :
    affine iAff0 (affine Aff0 wpt) = wpt :=
  (construct_frames_inverse clq_eval).2 wpt

/-- Witness for C6 at the concrete constructed frame. -/
theorem construct_normal_to_z_witness :
    (mat3of Aff0).mulVec
        ((norm3 (average (neighbourNormals collab0 mesh0 10 ![0, 0, 0])))⁻¹ •
          average (neighbourNormals collab0 mesh0 10 ![0, 0, 0])) = zvec :=
  construct_normal_to_z clq_eval

/-- Witness for C5 at the concrete sample (standoff distance 2). -/
theorem get_sample_standoff_witness :
    norm3 (sample0 - collab0.closest
        (affine 1 (quadratic_surf_position 0 0 coarseC0)) mesh0.coords)
      = |(2 : ℝ)| :=
  get_sample_standoff gs_eval

/-- Witness for C10 at the concrete placement. -/
theorem place_coil_flip_default_witness :
    colv M0 2 = -((norm3 ((mat3of iAff0).mulVec nloc0))⁻¹ •
      (mat3of iAff0).mulVec nloc0) :=
  (place_coil_flip_default gs_eval qsr_eval).2.1 M0 pc_eval

/-- Witness for C1 at the concrete placement. -/
theorem place_coil_pose_orthonormal_witness :
    dot3 (colv M0 0) (colv M0 0) = 1 ∧ dot3 (colv M0 1) (colv M0 1) = 1 ∧
      dot3 (colv M0 2) (colv M0 2) = 1 ∧ dot3 (colv M0 0) (colv M0 1) = 0 ∧
      dot3 (colv M0 0) (colv M0 2) = 0 ∧ dot3 (colv M0 1) (colv M0 2) = 0 ∧
      M0 3 0 = 0 ∧ M0 3 1 = 0 ∧ M0 3 2 = 0 ∧ M0 3 3 = 1 :=
  place_coil_pose_orthonormal gs_eval qsr_eval
    (by rw [mat3of_iAff0, rot_eval]
        intro h
        have h0 := congrFun h 0
        norm_num [rot0] at h0)
    pc_eval
